import Mathlib

/-!
Verification of the rustc-perf core subsystems:

* `site/src/request_handlers/graph.rs` — the graph aggregation engine
  (`handle_graph`, `handle_graph_impl`, `to_graph_points`);
* `collector/src/runtime/benchmark.rs` — runtime-benchmark discovery
  (`discover_benchmarks`, `get_runtime_benchmark_groups`, `gather_benchmarks`,
  `BenchmarkSuite` counting).

Conventions of the shallow embedding:

* Machine floats (`f64`/`f32`) are modelled as exact rationals `ℚ`; the
  narrowing `as f32` cast is dropped.  Division by zero is the `ℚ` convention
  `x / 0 = 0` (the reference design declares zero baselines undefined).
* Rust panics (`unwrap`/`expect`/`unreachable!`) and `anyhow` errors are both
  modelled as `Except String`.
* External collaborators (the store, the filesystem, cargo, benchmark
  binaries, the JSON decoder) are parameters of the definitions that use them.
* `String` keys ordered by `Ord::cmp` in Rust are modelled by types carrying a
  `LinearOrder`.
-/

/-! ## Graph aggregation (`site/src/request_handlers/graph.rs`) -/

/-- `GraphKind` from `site/src/api.rs`: the point-transform requested by a
graph query. -/
inductive GraphKind
  | Raw
  | PercentRelative
  | PercentFromFirst
deriving DecidableEq, Repr

/-- `GraphPoint` (graph.rs lines 86-89): one output point of the
aggregation, a value plus an interpolation flag. -/
structure GraphPoint where
  value : ℚ
  is_interpolated : Bool
deriving DecidableEq, Repr

/-- The loop state of `to_graph_points` (graph.rs lines 218-241): `first?` and
`prev?` are the `first`/`prev` mutable options captured by the closure; each
element of the input is `(optional value, interpolated flag)`.  The
`point.expect("interpolated")` panic on an absent value is the
`.error "interpolated"` branch. -/
def to_graph_points_go (kind : GraphKind) (first? prev? : Option ℚ) :
    List (Option ℚ × Bool) → Except String (List GraphPoint)
  | [] => .ok []
  | (point?, interpolated) :: rest =>
    match point? with
    | none => .error "interpolated"
    | some point =>
      let first := first?.getD point
      let percent_first := (point - first) / first * 100
      let previous_point := prev?.getD point
      let percent_prev := (point - previous_point) / previous_point * 100
      match to_graph_points_go kind (some first) (some point) rest with
      | .error e => .error e
      | .ok tail =>
        .ok ({ value :=
                 match kind with
                 | .Raw => point
                 | .PercentRelative => percent_prev
                 | .PercentFromFirst => percent_first
               is_interpolated := interpolated } :: tail)

/-- `to_graph_points` (graph.rs lines 218-241), with both mutable options
starting out `None`. -/
def to_graph_points (kind : GraphKind) (points : List (Option ℚ × Bool)) :
    Except String (List GraphPoint) :=
  to_graph_points_go kind none none points

/-- Modelled from the spec: the InterpolationEngine (`site/src/interpolate.rs`
is not part of the sources; spec §4.4).  A present value passes through with
flag `false`; an absent value is replaced by the nearest preceding non-absent
value with flag `true`; a leading gap (no preceding value) stays absent.
`last` is the most recent present value seen so far. -/
def interpolate (last : Option ℚ) : List (Option ℚ) → List (Option ℚ × Bool)
  | [] => []
  | some v :: rest => (some v, false) :: interpolate (some v) rest
  | none :: rest => (last, true) :: interpolate last rest

/-- Modelled from the spec: one output point of `db::average`
(`site/src/average.rs` is not part of the sources; spec §4.5 "averaged raw
series"): the arithmetic mean across the series' values at one commit, absent
when no series contributes a value; the point is interpolated when any
contributing point is. -/
def avg_point (pts : List (Option ℚ × Bool)) : Option ℚ × Bool :=
  let vals := pts.filterMap (·.1)
  (if vals.isEmpty then none else some (vals.sum / (vals.length : ℚ)),
   pts.any (·.2))

/-- Length of the longest series in a list of series. -/
def max_len (ls : List (List α)) : ℕ :=
  ls.foldr (fun s acc => max s.length acc) 0

/-- Modelled from the spec: `db::average` (`site/src/average.rs` is not part
of the sources): the pointwise arithmetic mean across a list of series,
commit by commit. -/
def average (ls : List (List (Option ℚ × Bool))) : List (Option ℚ × Bool) :=
  (List.range (max_len ls)).map fun i => avg_point (ls.filterMap fun s => s.get? i)

/-- The memoized summary baseline computation of `handle_graph_impl`
(graph.rs lines 162-176): interpolate every series the store returned for the
`(profile, Scenario::Empty, metric)` query, average them, and take
`.next().map_or(0.0, |((_c, d), _interpolated)| d.expect("interpolated"))` —
the first averaged point, defaulting to `0.0` when there is none, and
panicking when its value is absent.  The store's response is the
argument `ss` (one optional-value series per benchmark). -/
def baseline (ss : List (List (Option ℚ))) : Except String ℚ :=
  match (average (ss.map (interpolate none))).head? with
  | none => .ok 0
  | some (some d, _) => .ok d
  | some (none, _) => .error "interpolated"

/-- The baseline as the spec's sentence describes it (spec §4.5): the
arithmetic mean, over all commits of the requested range, of the interpolated
`(profile, Scenario::Empty, metric)` series values.  Kept for comparison with
`baseline`, which is the translation of the code. -/
def spec_baseline_mean (s : List (Option ℚ)) : ℚ :=
  let vals := (interpolate none s).filterMap (·.1)
  vals.sum / (vals.length : ℚ)

/-- `collector::Bound`: one end of a requested commit range. -/
inductive Bound
  | commit (sha : String)
  | date (d : Int)
  | none
deriving DecidableEq, Repr

/-- `graph::Request` (the `body` of `handle_graph`): start and end bounds, the
requested metric (`stat`) and the point-transform kind. -/
structure Request where
  start : Bound
  end_ : Bound
  stat : String
  kind : GraphKind
deriving DecidableEq, Repr

/-- The canonical landing-page query compared against `body` in graph.rs
lines 18-24: no bounds, metric `"instructions:u"`, kind `Raw`. -/
def default_query : Request :=
  { start := Bound.none, end_ := Bound.none
    stat := "instructions:u", kind := GraphKind.Raw }

/-- Observable outcome of one `handle_graph` call: the response, the state of
the landing-page cache slot afterwards, and whether the response was freshly
computed (as opposed to served from the cache). -/
structure HandleGraphOutcome (Resp : Type) where
  resp : Resp
  cache : Option Resp
  recomputed : Bool
deriving DecidableEq, Repr

/-- The caching skeleton of `handle_graph` (graph.rs lines 12-84): test
`body` against the canonical query by structural equality (lines 18-24); on a
hit with a populated slot return it (lines 26-31); otherwise compute the
response and, only for the canonical query, store it (lines 79-81).  The
computation of the response itself is the oracle `compute`; `cache` is the
`ctxt.landing_page` slot. -/
def handle_graph {Resp : Type} (body : Request) (cache : Option Resp)
    (compute : Request → Resp) : HandleGraphOutcome Resp :=
  let is_default_query : Bool := decide (body = default_query)
  if is_default_query then
    match cache with
    | some resp => { resp := resp, cache := cache, recomputed := false }
    | none =>
      let resp := compute body
      { resp := resp, cache := some resp, recomputed := true }
  else
    let resp := compute body
    { resp := resp, cache := cache, recomputed := true }

/-- `ArtifactId` from the db crate: a measured point in history, either a
commit (sha plus timestamp) or a named tag. -/
inductive ArtifactId
  | commit (sha : String) (date : Int)
  | tag (name : String)
deriving DecidableEq, Repr

/-- The commits list of the response (graph.rs lines 68-77): each artifact is
mapped to `(timestamp, sha)`; a `Tag` reaches `unreachable!()`, modelled as
the error `"unreachable"`. -/
def resp_commits (commits : List ArtifactId) : Except String (List (Int × String)) :=
  commits.mapM fun c =>
    match c with
    | .commit sha date => .ok (date, sha)
    | .tag _ => .error "unreachable"

/-- `graph::Series` on the wire (graph.rs lines 47-57): the point values in
order, and the set of indices that were interpolated.  The code inserts
`idx as u16` into a `HashSet<u16>`; the set is modelled as the list of
inserted values, each a `u16`, i.e. the position reduced `% 65536`. -/
structure WireSeries where
  points : List ℚ
  is_interpolated : List ℕ
deriving DecidableEq, Repr

/-- The per-series loop of `handle_graph` (graph.rs lines 52-57): push every
point's value and record `idx as u16` for each interpolated point. -/
def build_series (pts : List GraphPoint) : WireSeries :=
  { points := pts.map (·.value)
    is_interpolated :=
      pts.enum.filterMap fun p =>
        if p.2.is_interpolated then some (p.1 % 65536) else none }

/-! ## Runtime benchmark discovery (`collector/src/runtime/benchmark.rs`) -/

/-- What `get_runtime_benchmark_groups` observes about one directory entry of
the benchmark directory (benchmark.rs lines 215-229): whether it is a
directory, whether it contains a `Cargo.toml`, its file name (`none` when the
name cannot be extracted, the error path of lines 223-227), and its path. -/
structure DirEntry (Name Path : Type) where
  is_dir : Bool
  has_cargo_toml : Bool
  file_name : Option Name
  path : Path
deriving DecidableEq, Repr

/-- `BenchmarkGroupCrate` (benchmark.rs lines 74-77): a candidate
benchmark crate, its name and path. -/
structure BenchmarkGroupCrate (Name Path : Type) where
  name : Name
  path : Path
deriving DecidableEq, Repr

/-- `BenchmarkGroup` (benchmark.rs lines 21-25): a compiled benchmark binary
and the benchmark names it reported. -/
structure BenchmarkGroup (Path : Type) where
  binary : Path
  benchmark_names : List String
deriving DecidableEq, Repr

/-- `BenchmarkSuite` (benchmark.rs lines 33-37). -/
structure BenchmarkSuite (Path : Type) where
  groups : List (BenchmarkGroup Path)
deriving DecidableEq, Repr

variable {Name Path : Type}

/-- The body of the `for entry in read_dir` loop of
`get_runtime_benchmark_groups` (benchmark.rs lines 218-229): skip entries
that are not directories or have no `Cargo.toml`; fail when the file name
cannot be extracted; otherwise yield the candidate crate. -/
def crate_of_entry (e : DirEntry Name Path) :
    Except String (Option (BenchmarkGroupCrate Name Path)) :=
  if !e.is_dir || !e.has_cargo_toml then .ok none
  else
    match e.file_name with
    | none => .error "Cannot get filename"
    | some n => .ok (some { name := n, path := e.path })

/-- Total variant of `crate_of_entry` used to state what a successful
traversal returns. -/
def crate_of_entryD (e : DirEntry Name Path) : Option (BenchmarkGroupCrate Name Path) :=
  match crate_of_entry e with
  | .ok v => v
  | .error _ => none

/-- `get_runtime_benchmark_groups` (benchmark.rs lines 213-233): collect the
candidate crates of the directory listing, then
`groups.sort_unstable_by(|a, b| a.name.cmp(&b.name))` — modelled as an
insertion sort by name.  The directory listing is the argument `entries`, in
whatever order the filesystem enumerates it. -/
def get_runtime_benchmark_groups [LinearOrder Name]
    (entries : List (DirEntry Name Path)) :
    Except String (List (BenchmarkGroupCrate Name Path)) :=
  (entries.mapM crate_of_entry).map fun gs =>
    (gs.filterMap id).insertionSort fun a b => a.name ≤ b.name

/-- `discover_benchmarks` (benchmark.rs lines 83-125): list and sort the
candidate crates, compile each in that order collecting its benchmark
groups, then `groups.sort_unstable_by(|a, b| a.binary.cmp(&b.binary))`.
Compiling one crate (`start_cargo_build` + `discover_benchmark_groups`,
which talk to cargo and the benchmark binaries) is the oracle `build`. -/
def discover_benchmarks [LinearOrder Name] [LinearOrder Path]
    (build : BenchmarkGroupCrate Name Path → Except String (List (BenchmarkGroup Path)))
    (entries : List (DirEntry Name Path)) :
    Except String (BenchmarkSuite Path) := do
  let benchmark_crates ← get_runtime_benchmark_groups entries
  let group_lists ← benchmark_crates.mapM build
  .ok { groups := group_lists.flatten.insertionSort fun a b => a.binary ≤ b.binary }

/-- `BenchmarkFilter` (benchmark.rs lines 63-66). -/
structure BenchmarkFilter where
  exclude : Option String
  include_ : Option String
deriving DecidableEq, Repr

/-- Modelled from the spec: `benchlib::benchmark::passes_filter` (benchlib is
not part of the sources; spec §4.2): a name passes iff (include is absent OR
the name pat_matches include) AND (exclude is absent OR the name does not match
exclude).  The pattern-match relation itself, which the spec leaves abstract,
is the parameter `pat_matches`. -/
def passes_filter (pat_matches : String → String → Bool) (name : String)
    (exclude include_ : Option String) : Bool :=
  (match include_ with
   | none => true
   | some p => pat_matches name p) &&
  (match exclude with
   | none => true
   | some p => !(pat_matches name p))

/-- `BenchmarkSuite::benchmark_names` (benchmark.rs lines 56-61): all names,
flat-mapped across the groups in order. -/
def BenchmarkSuite.all_benchmark_names (s : BenchmarkSuite Path) : List String :=
  (s.groups.map (·.benchmark_names)).flatten

/-- `BenchmarkSuite::total_benchmark_count` (benchmark.rs lines 40-42). -/
def BenchmarkSuite.total_benchmark_count (s : BenchmarkSuite Path) : ℕ :=
  s.all_benchmark_names.length

/-- `BenchmarkSuite::filtered_benchmark_count` (benchmark.rs lines 44-54),
parameterized like `passes_filter` by the abstract match relation. -/
def BenchmarkSuite.filtered_benchmark_count (pat_matches : String → String → Bool)
    (filter : BenchmarkFilter) (s : BenchmarkSuite Path) : ℕ :=
  (s.all_benchmark_names.filter fun b =>
    passes_filter pat_matches b filter.exclude filter.include_).length

/-- What `Command::output()` observes about a finished child process: its
exit status and captured standard output (bytes). -/
structure ProcessOutput where
  success : Bool
  code : Option Int
  stdout : List ℕ
deriving DecidableEq, Repr

/-- `gather_benchmarks` (benchmark.rs lines 207-210): run the binary with
`list` (`output` is the result of `Command::output()`, `.error` when the
process could not be run at all), then decode its standard output —
`serde_json::from_slice` is the oracle `from_slice`.  The exit status of the
child is never examined. -/
def gather_benchmarks (from_slice : List ℕ → Except String (List String))
    (output : Except String ProcessOutput) : Except String (List String) := do
  let output ← output
  from_slice output.stdout

/-! ## Helper definitions and lemmas for the percent transforms -/

/-- A series of present values with interpolation flags off. -/
def present (vs : List ℚ) : List (Option ℚ × Bool) :=
  vs.map fun v => (some v, false)

/-- Closed form of the `PercentRelative` values after the first point, where
`prev` is the predecessor of the list's first element. -/
def percent_rel_from (prev : ℚ) : List ℚ → List ℚ
  | [] => []
  | v :: rest => (v - prev) / prev * 100 :: percent_rel_from v rest

theorem present_nil : present [] = [] := rfl

theorem present_cons (v : ℚ) (vs : List ℚ) :
    present (v :: vs) = (some v, false) :: present vs := rfl

theorem to_graph_points_go_rel (vs : List ℚ) : ∀ f p : ℚ,
    to_graph_points_go .PercentRelative (some f) (some p) (present vs) =
      .ok ((percent_rel_from p vs).map fun q => { value := q, is_interpolated := false }) := by
  induction vs with
  | nil => intro f p; rfl
  | cons v rest ih =>
    intro f p
    rw [present_cons]
    simp [to_graph_points_go, percent_rel_from, ih]

theorem to_graph_points_go_first (vs : List ℚ) : ∀ f p : ℚ,
    to_graph_points_go .PercentFromFirst (some f) (some p) (present vs) =
      .ok (vs.map fun w => { value := (w - f) / f * 100, is_interpolated := false }) := by
  induction vs with
  | nil => intro f p; rfl
  | cons v rest ih =>
    intro f p
    rw [present_cons]
    simp [to_graph_points_go, ih]

theorem to_graph_points_rel (v : ℚ) (vs : List ℚ) :
    to_graph_points .PercentRelative (present (v :: vs)) =
      .ok ({ value := 0, is_interpolated := false } ::
        (percent_rel_from v vs).map fun q => { value := q, is_interpolated := false }) := by
  rw [to_graph_points, present_cons]
  simp [to_graph_points_go, to_graph_points_go_rel]

theorem to_graph_points_first (v : ℚ) (vs : List ℚ) :
    to_graph_points .PercentFromFirst (present (v :: vs)) =
      .ok ({ value := 0, is_interpolated := false } ::
        vs.map fun w => { value := (w - v) / v * 100, is_interpolated := false }) := by
  rw [to_graph_points, present_cons]
  simp [to_graph_points_go, to_graph_points_go_first]

theorem percent_rel_from_length (vs : List ℚ) : ∀ p : ℚ,
    (percent_rel_from p vs).length = vs.length := by
  induction vs with
  | nil => intro p; rfl
  | cons v rest ih => intro p; simp [percent_rel_from, ih]

theorem percent_rel_from_get (vs : List ℚ) : ∀ (p : ℚ) (i : ℕ) (h : i < vs.length),
    (percent_rel_from p vs).get ⟨i, by rw [percent_rel_from_length]; exact h⟩ =
      (vs.get ⟨i, h⟩ - (p :: vs).get ⟨i, Nat.lt_succ_of_lt h⟩) /
        (p :: vs).get ⟨i, Nat.lt_succ_of_lt h⟩ * 100 := by
  induction vs with
  | nil => intro p i h; exact absurd h (Nat.not_lt_zero i)
  | cons v rest ih =>
    intro p i h
    match i with
    | 0 => rfl
    | Nat.succ j =>
      have hj : j < rest.length := Nat.lt_of_succ_lt_succ h
      simpa [percent_rel_from] using ih v j hj

/-- C3: for every non-empty series of present values `v_0 .. v_n`,
`to_graph_points` with kind `PercentRelative` yields
`(v_i - v_(i-1)) / v_(i-1) * 100` at position `i` with the first point equal
to `0`, and with kind `PercentFromFirst` yields `(v_i - v_0) / v_0 * 100`
with the first point equal to `0`; in particular `PercentRelative` of
`[10, 20, 15]` is `[0, 100, -25]` and `PercentFromFirst` of `[10, 20, 15]`
is `[0, 100, 50]`. -/
theorem to_points_percent_transforms :
    (∀ (v : ℚ) (vs : List ℚ), ∃ out : List GraphPoint,
      to_graph_points .PercentRelative (present (v :: vs)) = .ok out ∧
      out.length = vs.length + 1 ∧
      (∀ h : 0 < out.length, (out.get ⟨0, h⟩).value = 0) ∧
      ∀ (i : ℕ) (h : i < vs.length) (h2 : i + 1 < out.length),
        (out.get ⟨i + 1, h2⟩).value =
          (vs.get ⟨i, h⟩ - (v :: vs).get ⟨i, Nat.lt_succ_of_lt h⟩) /
            (v :: vs).get ⟨i, Nat.lt_succ_of_lt h⟩ * 100) ∧
    (∀ (v : ℚ) (vs : List ℚ), ∃ out : List GraphPoint,
      to_graph_points .PercentFromFirst (present (v :: vs)) = .ok out ∧
      out.length = vs.length + 1 ∧
      (∀ h : 0 < out.length, (out.get ⟨0, h⟩).value = 0) ∧
      ∀ (i : ℕ) (h : i < vs.length) (h2 : i + 1 < out.length),
        (out.get ⟨i + 1, h2⟩).value = (vs.get ⟨i, h⟩ - v) / v * 100) ∧
    to_graph_points .PercentRelative (present [10, 20, 15]) =
      .ok [{ value := 0, is_interpolated := false },
           { value := 100, is_interpolated := false },
           { value := -25, is_interpolated := false }] ∧
    to_graph_points .PercentFromFirst (present [10, 20, 15]) =
      .ok [{ value := 0, is_interpolated := false },
           { value := 100, is_interpolated := false },
           { value := 50, is_interpolated := false }] := by
  refine ⟨?_, ?_, ?_, ?_⟩
  · intro v vs
    refine ⟨_, to_graph_points_rel v vs, by simp [percent_rel_from_length], fun h => rfl, ?_⟩
    intro i h h2
    have hget := percent_rel_from_get vs v i h
    simp only [List.get_cons_succ, List.get_map]
    exact hget
  · intro v vs
    refine ⟨_, to_graph_points_first v vs, by simp, fun h => rfl, ?_⟩
    intro i h h2
    simp
  · rw [show present [10, 20, 15] = present (10 :: [20, 15]) from rfl,
      to_graph_points_rel]
    norm_num [percent_rel_from]
  · rw [show present [10, 20, 15] = present (10 :: [20, 15]) from rfl,
      to_graph_points_first]
    norm_num

theorem to_points_percent_transforms_witness :
    Except.map (fun l => l.map GraphPoint.value)
      (to_graph_points .PercentRelative (present [10, 20])) = .ok [0, 100] := by
  obtain ⟨out, hok, hlen, h0, hi⟩ := to_points_percent_transforms.1 10 [20]
  rw [hok]
  have hlen2 : out.length = 2 := by simpa using hlen
  obtain ⟨a, b, rfl⟩ := List.length_eq_two.mp hlen2
  have ha : a.value = 0 := h0 (by simp)
  have hb : b.value = 100 := by
    have hb0 := hi 0 (by decide) (by simp)
    norm_num at hb0
    exact hb0
  rw [show Except.map (fun l => l.map GraphPoint.value)
      (Except.ok (ε := String) [a, b]) = .ok [a.value, b.value] from rfl, ha, hb]

/-! ## Lemmas for absent values reaching `to_graph_points` -/

theorem to_graph_points_go_error_of_absent :
    ∀ (points : List (Option ℚ × Bool)) (kind : GraphKind) (f? p? : Option ℚ),
    (∃ i, ∃ h : i < points.length, (points.get ⟨i, h⟩).1 = none) →
    to_graph_points_go kind f? p? points = .error "interpolated" := by
  intro points
  induction points with
  | nil =>
    intro kind f? p? habs
    obtain ⟨i, h, _⟩ := habs
    exact absurd h (Nat.not_lt_zero i)
  | cons hd rest ih =>
    intro kind f? p? habs
    obtain ⟨x, b⟩ := hd
    match x with
    | none => rfl
    | some v =>
      obtain ⟨i, h, hi⟩ := habs
      match i with
      | 0 => exact absurd hi (by simp)
      | Nat.succ j =>
        have hj : j < rest.length := Nat.lt_of_succ_lt_succ h
        have := ih kind (some ((f?).getD v)) (some v) ⟨j, hj, hi⟩
        simp [to_graph_points_go, this]

theorem to_graph_points_go_ok_of_present :
    ∀ (points : List (Option ℚ × Bool)) (kind : GraphKind) (f? p? : Option ℚ),
    (∀ i (h : i < points.length), (points.get ⟨i, h⟩).1 ≠ none) →
    ∃ out, to_graph_points_go kind f? p? points = .ok out := by
  intro points
  induction points with
  | nil => intro kind f? p? _; exact ⟨[], rfl⟩
  | cons hd rest ih =>
    intro kind f? p? hpres
    obtain ⟨x, b⟩ := hd
    match x with
    | none => exact absurd (hpres 0 (Nat.succ_pos _)) (by simp)
    | some v =>
      obtain ⟨out, hout⟩ :=
        ih kind (some ((f?).getD v)) (some v) fun i h => hpres (i + 1) (Nat.succ_lt_succ h)
      simp only [to_graph_points_go, hout]
      exact ⟨_, rfl⟩

theorem interpolate_present_of_last_some :
    ∀ (rest : List (Option ℚ)) (v : ℚ) (i : ℕ)
      (h : i < (interpolate (some v) rest).length),
      ((interpolate (some v) rest).get ⟨i, h⟩).1 ≠ none := by
  intro rest
  induction rest with
  | nil => intro v i h; exact absurd h (Nat.not_lt_zero i)
  | cons hd t ih =>
    intro v i h
    match hd with
    | none =>
      match i with
      | 0 => simp [interpolate]
      | Nat.succ j =>
        have := ih v j (by simpa [interpolate] using h)
        simpa [interpolate] using this
    | some w =>
      match i with
      | 0 => simp [interpolate]
      | Nat.succ j =>
        have := ih w j (by simpa [interpolate] using h)
        simpa [interpolate] using this

/-- C5: for every input series, an absent value at any position makes
`to_graph_points` fail with the `"interpolated"` expectation; when every
position holds a present value the failing branch is unreachable, and this
precondition is guaranteed for interpolation of a series with no leading gap
(its first value present). -/
theorem to_points_absent_fatal_present_ok (kind : GraphKind)
    (points : List (Option ℚ × Bool)) :
    ((∃ i, ∃ h : i < points.length, (points.get ⟨i, h⟩).1 = none) →
      to_graph_points kind points = .error "interpolated") ∧
    ((∀ i (h : i < points.length), (points.get ⟨i, h⟩).1 ≠ none) →
      ∃ out, to_graph_points kind points = .ok out) ∧
    (∀ (v : ℚ) (rest : List (Option ℚ)), ∃ out,
      to_graph_points kind (interpolate none (some v :: rest)) = .ok out) := by
  refine ⟨fun habs => to_graph_points_go_error_of_absent points kind none none habs,
    fun hpres => to_graph_points_go_ok_of_present points kind none none hpres, ?_⟩
  intro v rest
  have hshape : interpolate none (some v :: rest) =
      (some v, false) :: interpolate (some v) rest := rfl
  rw [to_graph_points, hshape]
  apply to_graph_points_go_ok_of_present
  intro i h
  match i with
  | 0 => simp
  | Nat.succ j =>
    have hj : j < (interpolate (some v) rest).length := Nat.lt_of_succ_lt_succ (by simpa using h)
    simpa using interpolate_present_of_last_some rest v j hj

theorem to_points_absent_fatal_present_ok_witness :
    to_graph_points .Raw [((some 1 : Option ℚ), false), (none, true)] =
      .error "interpolated" ∧
    to_graph_points .Raw [((some 1 : Option ℚ), false)] =
      .ok [{ value := 1, is_interpolated := false }] := by
  constructor
  · exact (to_points_absent_fatal_present_ok .Raw _).1 ⟨1, by decide, rfl⟩
  · obtain ⟨out, hout⟩ :=
      (to_points_absent_fatal_present_ok .Raw
        [((some 1 : Option ℚ), false)]).2.1 fun i h => by
          match i with
          | 0 => simp
          | Nat.succ j => exact absurd h (by simp)
    have hdirect : to_graph_points .Raw [((some 1 : Option ℚ), false)] =
        .ok [{ value := 1, is_interpolated := false }] := rfl
    exact hdirect

/-! ## Lemmas for the summary baseline -/

theorem max_len_cons (l : List α) (ls : List (List α)) :
    max_len (l :: ls) = max l.length (max_len ls) := rfl

theorem average_head (ls : List (List (Option ℚ × Bool))) (k : ℕ)
    (hk : max_len ls = k + 1) :
    (average ls).head? = some (avg_point (ls.filterMap fun s => s.get? 0)) := by
  rw [average, hk, List.range_succ_eq_map]
  rfl

theorem filterMap_get0_interpolated :
    ∀ (heads : List ℚ) (tails : List (List (Option ℚ))),
      heads.length = tails.length →
      (List.zipWith (fun h t => some h :: t) heads tails).filterMap
          (fun s => (interpolate none s).get? 0) =
        heads.map fun h => ((some h : Option ℚ), false) := by
  intro heads
  induction heads with
  | nil => intro tails _; rfl
  | cons h hs ih =>
    intro tails hlen
    match tails with
    | [] => exact absurd hlen (by simp)
    | t :: ts =>
      have hstep : interpolate none (some h :: t) =
          (some h, false) :: interpolate (some h) t := rfl
      simp only [List.zipWith_cons_cons, List.filterMap_cons, hstep, List.get?_cons_zero,
        List.map_cons]
      rw [ih ts (by simpa using hlen)]

theorem filterMap_some_pairs (heads : List ℚ) :
    (heads.map fun h => ((some h : Option ℚ), false)).filterMap (·.1) = heads := by
  induction heads with
  | nil => rfl
  | cons h hs ih => simp [ih]

/-- C1 (amended): the memoized scalar baseline is the value at the first
commit of the cross-series average of the interpolated baseline series — for
series whose first values are `heads`, the arithmetic mean of `heads` — not
the mean over all commits of the range. -/
theorem baseline_eq_mean_of_first_commit (heads : List ℚ)
    (tails : List (List (Option ℚ)))
    (hne : heads ≠ []) (hlen : heads.length = tails.length) :
    baseline (List.zipWith (fun h t => some h :: t) heads tails) =
      .ok (heads.sum / (heads.length : ℚ)) := by
  match heads, tails with
  | [], _ => exact absurd rfl hne
  | h :: hs, [] => exact absurd hlen (by simp)
  | h :: hs, t :: ts =>
    have hshape : List.zipWith (fun h t => some h :: t) (h :: hs) (t :: ts) =
        (some h :: t) :: List.zipWith (fun h t => some h :: t) hs ts := rfl
    have hstep : interpolate none (some h :: t) =
        (some h, false) :: interpolate (some h) t := rfl
    have hpos : 0 < max_len
        ((List.zipWith (fun h t => some h :: t) (h :: hs) (t :: ts)).map
          (interpolate none)) := by
      rw [hshape, List.map_cons, hstep, max_len_cons]
      exact lt_of_lt_of_le (Nat.succ_pos _) (le_max_left _ _)
    obtain ⟨k, hk⟩ : ∃ k, max_len
        ((List.zipWith (fun h t => some h :: t) (h :: hs) (t :: ts)).map
          (interpolate none)) = k + 1 :=
      ⟨_, (Nat.succ_pred_eq_of_pos hpos).symm⟩
    have hhead := average_head _ k hk
    have hget0 : ((List.zipWith (fun h t => some h :: t) (h :: hs) (t :: ts)).map
        (interpolate none)).filterMap (fun s => s.get? 0) =
        (h :: hs).map fun w => ((some w : Option ℚ), false) := by
      rw [List.filterMap_map]
      exact filterMap_get0_interpolated (h :: hs) (t :: ts) hlen
    have havg : avg_point ((h :: hs).map fun w => ((some w : Option ℚ), false)) =
        (some ((h :: hs).sum / (((h :: hs).length : ℕ) : ℚ)),
         ((h :: hs).map fun w => ((some w : Option ℚ), false)).any (·.2)) := by
      rw [avg_point]
      simp only [filterMap_some_pairs]
      simp
    rw [baseline, hhead, hget0, havg]

theorem baseline_eq_mean_of_first_commit_witness :
    baseline [[(some 2 : Option ℚ), some 4]] = .ok 2 := by
  have h := baseline_eq_mean_of_first_commit [2] [[some 4]] (by simp) (by simp)
  have heval : (([2] : List ℚ).sum / (([2] : List ℚ).length : ℚ)) = 2 := by norm_num
  rw [heval] at h
  exact h

/-- C1 (counterexample): for the single baseline series `[1, 3]` over a
two-commit range, the code's baseline is `1` (the first averaged point),
while the arithmetic mean over the commit range described by the spec
is `2`. -/
theorem baseline_not_commit_range_mean_cex :
    baseline [[(some 1 : Option ℚ), some 3]] = .ok 1 ∧
    spec_baseline_mean [(some 1 : Option ℚ), some 3] = 2 ∧
    Except.ok (ε := String) (1 : ℚ) ≠ .ok 2 := by
  refine ⟨?_, ?_, by simp⟩
  · have h := baseline_eq_mean_of_first_commit [1] [[some 3]] (by simp) (by simp)
    have heval : (([1] : List ℚ).sum / (([1] : List ℚ).length : ℚ)) = 1 := by norm_num
    rw [heval] at h
    exact h
  · rw [spec_baseline_mean]
    have hstep : interpolate none [(some 1 : Option ℚ), some 3] =
        [(some 1, false), (some 3, false)] := rfl
    rw [hstep]
    have hfm : List.filterMap (fun x => x.1)
        [((some 1 : Option ℚ), false), (some 3, false)] = [1, 3] := rfl
    rw [hfm]
    norm_num

/-- C2 (counterexample): when the store returns no data at all for the
baseline query, the baseline computation yields the default `0.0` and no
error — the request proceeds instead of failing. -/
theorem baseline_missing_defaults_zero_cex :
    baseline ([] : List (List (Option ℚ))) = .ok 0 ∧
    (baseline ([] : List (List (Option ℚ)))).isOk = true := ⟨rfl, rfl⟩

theorem filterMap_get0_leading_gap :
    ∀ ss : List (List (Option ℚ)), (∀ s ∈ ss, s.head? = some (Option.none)) →
      ss.filterMap (fun s => (interpolate none s).get? 0) =
        ss.map fun _ => ((none : Option ℚ), true) := by
  intro ss
  induction ss with
  | nil => intro _; rfl
  | cons s rest ih =>
    intro h
    have hs : s.head? = some Option.none := h s (List.mem_cons_self s rest)
    match s with
    | [] => simp at hs
    | x :: t =>
      have hx : x = Option.none := by simpa using hs
      subst hx
      have hstep : interpolate none (Option.none :: t) =
          (none, true) :: interpolate none t := rfl
      simp only [List.filterMap_cons, hstep, List.get?_cons_zero, List.map_cons]
      rw [ih fun s hmem => h s (List.mem_cons_of_mem _ hmem)]

theorem filterMap_fst_gap (ss : List (List (Option ℚ))) :
    (ss.map fun _ => ((none : Option ℚ), true)).filterMap (·.1) = [] := by
  induction ss with
  | nil => rfl
  | cons s rest ih => simpa using ih

/-- C2 (amended): a store response with no baseline series at all yields the
default baseline `0.0` and no error; the computation fails (the
`"interpolated"` panic) when the series the store did return all lack a
value at the first commit (a leading interpolation gap). -/
theorem baseline_empty_ok_leading_gap_fatal :
    baseline ([] : List (List (Option ℚ))) = .ok 0 ∧
    ∀ ss : List (List (Option ℚ)), ss ≠ [] →
      (∀ s ∈ ss, s.head? = some (Option.none)) →
      baseline ss = .error "interpolated" := by
  refine ⟨rfl, ?_⟩
  intro ss hne hheads
  match ss with
  | [] => exact absurd rfl hne
  | s₀ :: rest =>
    have hs₀ : s₀.head? = some Option.none := hheads s₀ (List.mem_cons_self s₀ rest)
    match s₀ with
    | [] => simp at hs₀
    | x :: t =>
      have hx : x = Option.none := by simpa using hs₀
      subst hx
      have hstep : interpolate none (Option.none :: t) =
          (none, true) :: interpolate none t := rfl
      have hpos : 0 < max_len (((Option.none :: t) :: rest).map (interpolate none)) := by
        rw [List.map_cons, hstep, max_len_cons]
        exact lt_of_lt_of_le (Nat.succ_pos _) (le_max_left _ _)
      obtain ⟨k, hk⟩ : ∃ k, max_len (((Option.none :: t) :: rest).map (interpolate none)) =
          k + 1 := ⟨_, (Nat.succ_pred_eq_of_pos hpos).symm⟩
      have hhead := average_head _ k hk
      have hget0 : (((Option.none :: t) :: rest).map (interpolate none)).filterMap
          (fun s => s.get? 0) =
          ((Option.none :: t) :: rest).map fun _ => ((none : Option ℚ), true) := by
        rw [List.filterMap_map]
        exact filterMap_get0_leading_gap _ hheads
      have havg : avg_point (((Option.none :: t) :: rest).map
          fun _ => ((none : Option ℚ), true)) =
          (none, (((Option.none :: t) :: rest).map
            fun _ => ((none : Option ℚ), true)).any (·.2)) := by
        rw [avg_point]
        simp only [filterMap_fst_gap]
        simp
      rw [baseline, hhead, hget0, havg]

theorem baseline_empty_ok_leading_gap_fatal_witness :
    baseline [[(Option.none : Option ℚ)]] = .error "interpolated" :=
  baseline_empty_ok_leading_gap_fatal.2 [[Option.none]] (by simp) (by simp)

/-- C4: `handle_graph` recognizes exactly the canonical query (no bounds,
metric `"instructions:u"`, kind `Raw`) by structural equality; for that query
a populated cache slot is returned unchanged without recomputation, and the
slot is written after a fresh computation; for every non-canonical query the
cache slot is neither read (the outcome is independent of it) nor written
(it is left unchanged). -/
theorem handle_graph_cache_canonical_only (Resp : Type) (compute : Request → Resp) :
    (∀ r : Resp, handle_graph default_query (some r) compute =
      { resp := r, cache := some r, recomputed := false }) ∧
    (handle_graph default_query (Option.none) compute =
      { resp := compute default_query
        cache := some (compute default_query), recomputed := true }) ∧
    (∀ (body : Request) (cache : Option Resp), body ≠ default_query →
      handle_graph body cache compute =
        { resp := compute body, cache := cache, recomputed := true }) := by
  refine ⟨fun r => ?_, ?_, fun body cache hne => ?_⟩
  · simp [handle_graph]
  · simp [handle_graph]
  · simp [handle_graph, hne]

theorem handle_graph_cache_canonical_only_witness :
    handle_graph
      { start := Bound.none, end_ := Bound.none, stat := "x", kind := GraphKind.Raw }
      (some 3) (fun _ => 7) =
      { resp := 7, cache := some 3, recomputed := true } :=
  (handle_graph_cache_canonical_only ℕ (fun _ => 7)).2.2 _ (some 3) (by decide)

/-- C7: for every `BenchmarkSuite`, `total_benchmark_count` equals the sum
over its groups of the number of benchmark names in the group, and
`filtered_benchmark_count` with an absent include pattern and an absent
exclude pattern equals `total_benchmark_count`, whatever relation the
patterns are matched by. -/
theorem benchmark_counts_total_and_unfiltered {Path : Type} (s : BenchmarkSuite Path) :
    s.total_benchmark_count = (s.groups.map fun g => g.benchmark_names.length).sum ∧
    ∀ pat_matches : String → String → Bool,
      s.filtered_benchmark_count pat_matches
        { exclude := Option.none, include_ := Option.none } =
        s.total_benchmark_count := by
  constructor
  · rw [BenchmarkSuite.total_benchmark_count, BenchmarkSuite.all_benchmark_names]
    rw [List.length_flatten, List.map_map]
    rfl
  · intro pat_matches
    rw [BenchmarkSuite.filtered_benchmark_count, BenchmarkSuite.total_benchmark_count]
    have hpass : ∀ b : String, passes_filter pat_matches b Option.none Option.none = true :=
      fun b => rfl
    simp [hpass]

/-! ## Lemmas about `mapM` over `Except` -/

theorem mapM_ok_of_forall {α β : Type} {f : α → Except String β} {g : α → β} :
    ∀ {l : List α}, (∀ a ∈ l, f a = .ok (g a)) → l.mapM f = .ok (l.map g) := by
  intro l
  induction l with
  | nil => intro _; rfl
  | cons a rest ih =>
    intro h
    rw [List.mapM_cons, h a (List.mem_cons_self a rest),
      ih fun x hx => h x (List.mem_cons_of_mem _ hx)]
    rfl

theorem exists_ok_of_mapM_ok {α β : Type} {f : α → Except String β} :
    ∀ {l : List α} {out : List β}, l.mapM f = .ok out → ∀ a ∈ l, ∃ b, f a = .ok b := by
  intro l
  induction l with
  | nil => intro out _ a ha; exact absurd ha (List.not_mem_nil a)
  | cons x rest ih =>
    intro out hmap a ha
    rw [List.mapM_cons] at hmap
    match hfx : f x with
    | .error e => rw [hfx] at hmap; exact Except.noConfusion hmap
    | .ok b =>
      rw [hfx] at hmap
      match hrest : rest.mapM f with
      | .error e =>
        rw [hrest] at hmap
        exact Except.noConfusion hmap
      | .ok bs =>
        rcases List.mem_cons.mp ha with rfl | hmem
        · exact ⟨b, hfx⟩
        · exact ih hrest a hmem

/-- C8: under the precondition that every `ArtifactId` in the resolved commit
range is a `Commit`, the `Tag` branch of the response's commits list is
unreachable and the list is produced; a `Tag` anywhere in the range is fatal
(the `unreachable!()` panic), not a recoverable error. -/
theorem resp_commits_tag_unreachable (commits : List ArtifactId) :
    ((∀ c ∈ commits, ∃ sha date, c = ArtifactId.commit sha date) →
      ∃ l, resp_commits commits = .ok l) ∧
    ((∃ name, ArtifactId.tag name ∈ commits) →
      resp_commits commits = .error "unreachable") := by
  constructor
  · intro hall
    refine ⟨commits.map fun c =>
      match c with
      | .commit sha date => (date, sha)
      | .tag _ => (0, ""), mapM_ok_of_forall ?_⟩
    intro c hc
    obtain ⟨sha, date, rfl⟩ := hall c hc
    rfl
  · intro htag
    obtain ⟨name, hmem⟩ := htag
    induction commits with
    | nil => exact absurd hmem (List.not_mem_nil _)
    | cons c rest ih =>
      rw [resp_commits, List.mapM_cons]
      rcases List.mem_cons.mp hmem with rfl | hmem'
      · rfl
      · match c with
        | .tag n => rfl
        | .commit sha date =>
          have hrest : resp_commits rest = .error "unreachable" := ih hmem'
          rw [resp_commits] at hrest
          rw [hrest]
          rfl

theorem resp_commits_tag_unreachable_witness :
    resp_commits [ArtifactId.commit "a" 0] = .ok [((0 : Int), "a")] ∧
    resp_commits [ArtifactId.commit "a" 0, ArtifactId.tag "v1"] =
      .error "unreachable" := by
  constructor
  · obtain ⟨l, hl⟩ := (resp_commits_tag_unreachable _).1 fun c hc => by
      rw [List.mem_singleton.mp hc]
      exact ⟨"a", 0, rfl⟩
    have hdirect : resp_commits [ArtifactId.commit "a" 0] =
        .ok [((0 : Int), "a")] := rfl
    exact hdirect
  · exact (resp_commits_tag_unreachable _).2 ⟨"v1", by simp⟩

/-- C9: in the wire response, an interpolated point's index is recorded as
the position cast to `u16`, i.e. reduced modulo `2^16 = 65536`; every
recorded index is below `65536`, so a point at position `i ≥ 65536` (a
series longer than `65536`) is aliased onto a strictly earlier index. -/
theorem wire_series_index_truncated_u16 (pts : List GraphPoint) (i : ℕ)
    (h : i < pts.length) (hi : (pts.get ⟨i, h⟩).is_interpolated = true) :
    (i % 65536) ∈ (build_series pts).is_interpolated ∧
    (∀ j ∈ (build_series pts).is_interpolated, j < 65536) ∧
    (65536 ≤ i → i % 65536 < i) := by
  refine ⟨?_, ?_, fun hge => ?_⟩
  · rw [build_series]
    rw [List.mem_filterMap]
    refine ⟨(i, pts.get ⟨i, h⟩), ?_, by rw [hi]; rfl⟩
    rw [List.mem_enum_iff_getElem?]
    exact List.getElem?_eq_getElem h
  · intro j hj
    rw [build_series] at hj
    rw [List.mem_filterMap] at hj
    obtain ⟨a, _, ha⟩ := hj
    by_cases hint : a.2.is_interpolated
    · rw [if_pos hint] at ha
      have hj : a.1 % 65536 = j := Option.some.inj ha
      rw [← hj]
      exact Nat.mod_lt _ (by norm_num)
    · rw [if_neg hint] at ha
      exact Option.noConfusion ha
  · omega

theorem wire_series_index_truncated_u16_witness :
    (0 % 65536) ∈
      (build_series [{ value := 0, is_interpolated := true }]).is_interpolated :=
  (wire_series_index_truncated_u16 [{ value := 0, is_interpolated := true }] 0
    (by decide) rfl).1

/-- C10: `gather_benchmarks` never examines the exit status of the `list`
invocation: whenever the captured standard output decodes as a JSON array of
strings, discovery of the group succeeds, explicitly including a child that
exited unsuccessfully; more generally the outcome depends only on the
captured standard output. -/
theorem gather_benchmarks_ignores_exit_status
    (from_slice : List ℕ → Except String (List String))
    (stdout : List ℕ) (code : Option Int) (names : List String)
    (hdecode : from_slice stdout = .ok names) :
    gather_benchmarks from_slice
      (.ok { success := false, code := code, stdout := stdout }) = .ok names ∧
    ∀ o₁ o₂ : ProcessOutput, o₁.stdout = o₂.stdout →
      gather_benchmarks from_slice (.ok o₁) = gather_benchmarks from_slice (.ok o₂) := by
  constructor
  · rw [gather_benchmarks]
    exact hdecode
  · intro o₁ o₂ hstdout
    have h₁ : gather_benchmarks from_slice (.ok o₁) = from_slice o₁.stdout := rfl
    have h₂ : gather_benchmarks from_slice (.ok o₂) = from_slice o₂.stdout := rfl
    rw [h₁, h₂, hstdout]

theorem gather_benchmarks_ignores_exit_status_witness :
    gather_benchmarks (fun _ => .ok ["bench"])
      (.ok { success := false, code := some 101, stdout := [] }) = .ok ["bench"] :=
  (gather_benchmarks_ignores_exit_status (fun _ => .ok ["bench"]) [] (some 101)
    ["bench"] rfl).1

/-! ## Lemmas for discovery determinism -/

theorem eq_of_perm_of_sorted_key {α β : Type} [LinearOrder β] (key : α → β)
    {l₁ l₂ : List α} (hp : l₁.Perm l₂)
    (hs₁ : List.Sorted (fun a b => key a ≤ key b) l₁)
    (hs₂ : List.Sorted (fun a b => key a ≤ key b) l₂)
    (hn : (l₁.map key).Nodup) : l₁ = l₂ := by
  haveI : IsAntisymm α fun a b => key a < key b :=
    ⟨fun a b hab hba => absurd (hab.trans hba) (lt_irrefl _)⟩
  have hn₂ : (l₂.map key).Nodup := ((hp.map key).nodup_iff).mp hn
  have strict : ∀ (l : List α), List.Sorted (fun a b => key a ≤ key b) l →
      (l.map key).Nodup → List.Sorted (fun a b => key a < key b) l := by
    intro l hs hnd
    have hpw : l.Pairwise fun a b => key a ≠ key b := List.pairwise_map.mp hnd
    exact (List.Pairwise.and hs hpw).imp fun h => lt_of_le_of_ne h.1 h.2
  exact List.eq_of_perm_of_sorted hp (strict l₁ hs₁ hn) (strict l₂ hs₂ hn₂)

theorem crate_of_entryD_eq {Name Path : Type} {e : DirEntry Name Path}
    {b : Option (BenchmarkGroupCrate Name Path)}
    (h : crate_of_entry e = .ok b) : crate_of_entryD e = b := by
  rw [crate_of_entryD, h]

/-- C6: `discover_benchmarks` processes candidate crates in ascending order
of crate name regardless of filesystem enumeration order — any permutation of
the directory listing yields the same sorted candidate list and the same
suite — and the returned suite's groups are sorted by binary path. -/
theorem discover_benchmarks_deterministic_sorted {Name Path : Type}
    [LinearOrder Name] [LinearOrder Path]
    (entries₁ entries₂ : List (DirEntry Name Path))
    (build : BenchmarkGroupCrate Name Path → Except String (List (BenchmarkGroup Path)))
    (crates : List (BenchmarkGroupCrate Name Path))
    (hperm : entries₁.Perm entries₂)
    (hget₁ : get_runtime_benchmark_groups entries₁ = .ok crates)
    (hnodup : (crates.map fun c => c.name).Nodup) :
    List.Sorted (fun a b => a.name ≤ b.name) crates ∧
    get_runtime_benchmark_groups entries₂ = .ok crates ∧
    discover_benchmarks build entries₂ = discover_benchmarks build entries₁ ∧
    ∀ suite, discover_benchmarks build entries₁ = .ok suite →
      List.Sorted (fun a b => a.binary ≤ b.binary) suite.groups := by
  haveI : IsTotal (BenchmarkGroupCrate Name Path) fun a b => a.name ≤ b.name :=
    ⟨fun a b => le_total a.name b.name⟩
  haveI : IsTrans (BenchmarkGroupCrate Name Path) fun a b => a.name ≤ b.name :=
    ⟨fun _ _ _ hab hbc => le_trans hab hbc⟩
  haveI : IsTotal (BenchmarkGroup Path) fun a b => a.binary ≤ b.binary :=
    ⟨fun a b => le_total a.binary b.binary⟩
  haveI : IsTrans (BenchmarkGroup Path) fun a b => a.binary ≤ b.binary :=
    ⟨fun _ _ _ hab hbc => le_trans hab hbc⟩
  match hm : entries₁.mapM crate_of_entry with
  | .error e =>
    rw [get_runtime_benchmark_groups, hm] at hget₁
    exact Except.noConfusion hget₁
  | .ok out₁ =>
    have hcr : crates = (out₁.filterMap id).insertionSort fun a b => a.name ≤ b.name := by
      rw [get_runtime_benchmark_groups, hm] at hget₁
      exact (Except.ok.inj hget₁).symm
    have hall₁ : ∀ a ∈ entries₁, crate_of_entry a = .ok (crate_of_entryD a) := by
      intro a ha
      obtain ⟨b, hb⟩ := exists_ok_of_mapM_ok hm a ha
      rw [hb, crate_of_entryD_eq hb]
    have hout₁ : out₁ = entries₁.map crate_of_entryD := by
      have hmm := mapM_ok_of_forall hall₁
      rw [hm] at hmm
      exact Except.ok.inj hmm
    have hall₂ : ∀ a ∈ entries₂, crate_of_entry a = .ok (crate_of_entryD a) :=
      fun a ha => hall₁ a (hperm.mem_iff.mpr ha)
    have hm₂ : entries₂.mapM crate_of_entry = .ok (entries₂.map crate_of_entryD) :=
      mapM_ok_of_forall hall₂
    have hget₂ : get_runtime_benchmark_groups entries₂ =
        .ok (((entries₂.map crate_of_entryD).filterMap id).insertionSort
          fun a b => a.name ≤ b.name) := by
      rw [get_runtime_benchmark_groups, hm₂]
      rfl
    have hsorted₁ : List.Sorted (fun a b => a.name ≤ b.name) crates := by
      rw [hcr]
      exact List.sorted_insertionSort _ _
    have hsorted₂ : List.Sorted (fun a b => a.name ≤ b.name)
        (((entries₂.map crate_of_entryD).filterMap id).insertionSort
          fun a b => a.name ≤ b.name) :=
      List.sorted_insertionSort _ _
    have hpermc : crates.Perm
        (((entries₂.map crate_of_entryD).filterMap id).insertionSort
          fun a b => a.name ≤ b.name) := by
      have p1 : crates.Perm (out₁.filterMap id) := by
        rw [hcr]
        exact List.perm_insertionSort _ _
      have p2 : (out₁.filterMap id).Perm
          ((entries₂.map crate_of_entryD).filterMap id) := by
        rw [hout₁]
        exact List.Perm.filterMap id (hperm.map crate_of_entryD)
      have p3 : ((entries₂.map crate_of_entryD).filterMap id).Perm
          (((entries₂.map crate_of_entryD).filterMap id).insertionSort
            fun a b => a.name ≤ b.name) :=
        (List.perm_insertionSort _ _).symm
      exact (p1.trans p2).trans p3
    have heq : (((entries₂.map crate_of_entryD).filterMap id).insertionSort
        fun a b => a.name ≤ b.name) = crates :=
      (eq_of_perm_of_sorted_key (fun c => c.name) hpermc hsorted₁ hsorted₂ hnodup).symm
    have hget₂' : get_runtime_benchmark_groups entries₂ = .ok crates := by
      rw [hget₂, heq]
    refine ⟨hsorted₁, hget₂', ?_, ?_⟩
    · rw [discover_benchmarks, discover_benchmarks, hget₁, hget₂']
    · intro suite hsuite
      rw [discover_benchmarks, hget₁] at hsuite
      have hbind : (Except.ok crates >>= fun bc =>
          bc.mapM build >>= fun gl =>
            Except.ok (ε := String)
              ({ groups := gl.flatten.insertionSort fun a b => a.binary ≤ b.binary } :
                BenchmarkSuite Path)) =
          (crates.mapM build >>= fun gl =>
            Except.ok ({ groups := gl.flatten.insertionSort fun a b => a.binary ≤ b.binary } :
              BenchmarkSuite Path)) := rfl
      rw [hbind] at hsuite
      match hb : crates.mapM build with
      | .error e =>
        rw [hb] at hsuite
        exact Except.noConfusion hsuite
      | .ok gl =>
        rw [hb] at hsuite
        have : ({ groups := gl.flatten.insertionSort fun a b => a.binary ≤ b.binary } :
            BenchmarkSuite Path) = suite := Except.ok.inj hsuite
        rw [← this]
        exact List.sorted_insertionSort _ _

theorem discover_benchmarks_deterministic_sorted_witness :
    get_runtime_benchmark_groups
      [({ is_dir := true, has_cargo_toml := true, file_name := some 1, path := 5 } :
          DirEntry ℕ ℕ),
        { is_dir := false, has_cargo_toml := false, file_name := some 0, path := 0 }] =
      .ok [{ name := 1, path := 5 }] := by
  have h := discover_benchmarks_deterministic_sorted
    [({ is_dir := false, has_cargo_toml := false, file_name := some 0, path := 0 } :
        DirEntry ℕ ℕ),
      { is_dir := true, has_cargo_toml := true, file_name := some 1, path := 5 }]
    [{ is_dir := true, has_cargo_toml := true, file_name := some 1, path := 5 },
      { is_dir := false, has_cargo_toml := false, file_name := some 0, path := 0 }]
    (fun c => .ok [{ binary := c.path, benchmark_names := [] }])
    [{ name := 1, path := 5 }]
    (List.Perm.swap _ _ [])
    (by rfl)
    (by decide)
  exact h.2.1
